import Mathlib

/-!
Shallow embedding of the `doremid` ID codec (doremid.go) and proofs of its
specified properties.

Modelling conventions:
* Go strings are modelled as `List Char` (all characters involved are ASCII).
* Go `int`/`int64` values are modelled on `Nat`/`Int`.  Multiplication inside
  `intPow` is reduced modulo `2 ^ 64` after every step, exactly as Go's 64-bit
  integer multiplication wraps, and `MaxCombinations` reinterprets the 64-bit
  pattern as a signed value; the addition `startPosition + count` inside
  `BatchGenerateIDs` likewise wraps (`wrapI64`).  The remaining arithmetic in
  the codec is kept on unbounded integers; every theorem that depends on it
  carries the hypothesis `7 ^ m * 12 ^ p < 2 ^ 63` under which the Go values
  never leave the signed 64-bit range, so the model agrees with the source.
* The `math/rand` stream is modelled as an oracle `RandSrc`: an arbitrary
  infinite sequence of naturals together with a cursor; `Intn n` consumes the
  next value and reduces it modulo `n`.  Quantifying over all oracles covers
  every possible behaviour of the PRNG.
* The unbounded rejection-sampling loop of `randomSample` is modelled with
  explicit fuel, returning `none` when the fuel is exhausted before `count`
  distinct positions have been collected.
-/

namespace Doremid

/-- Modulus of Go's 64-bit integer arithmetic. -/
def w64 : Nat := 2 ^ 64

/-- First bit pattern that is negative as a signed 64-bit integer. -/
def i64Half : Nat := 2 ^ 63

/-- Signed reinterpretation of a 64-bit pattern, as Go's `int64` does. -/
def toSigned (u : Nat) : Int :=
  if u < i64Half then (u : Int) else (u : Int) - (w64 : Int)

/-- Go's two's-complement wrap of an integer into the `int64` range. -/
def wrapI64 (x : Int) : Int :=
  (x + (i64Half : Int)) % (w64 : Int) - (i64Half : Int)

/-- Oracle model of the generator's `*rand.Rand` stream. -/
structure RandSrc where
  seq : Nat → Nat
  cursor : Nat

/-- Model of `rand.Intn`: consume the next oracle value, reduced into `[0, n)`. -/
def intn (r : RandSrc) (n : Nat) : Nat × RandSrc :=
  (r.seq r.cursor % n, ⟨r.seq, r.cursor + 1⟩)

/-- Configuration of the generator (`Config` in doremid.go).  The digit counts
are modelled as naturals; the separator is a character list. -/
structure Config where
  JustIntonationDigits : Nat
  EqualTemperamentDigits : Nat
  Separator : List Char

/-- The seven two-character melody symbols built by `New`. -/
def justIntonationBytes : List (List Char) :=
  [['d', 'o'], ['r', 'e'], ['m', 'i'], ['f', 'a'], ['s', 'o'], ['l', 'a'], ['t', 'i']]

/-- The twelve pitch symbols (`"0123456789ab"`) built by `New`. -/
def equalTemperamentBytes : List Char :=
  ['0', '1', '2', '3', '4', '5', '6', '7', '8', '9', 'a', 'b']

/-- Every character that can occur in a melody or pitch segment. -/
def symbolChars : List Char := justIntonationBytes.flatten ++ equalTemperamentBytes

/-- Index lookup in a list of symbols; models the `justIntonationMap` built by
`New` (the map sends each symbol to its index in the alphabet). -/
def indexIn (l : List (List Char)) (key : List Char) : Option Nat :=
  match l with
  | [] => none
  | x :: xs => if x = key then some 0 else (indexIn xs key).map (· + 1)

/-- Character index lookup; models `equalTemperamentMap`. -/
def indexInChar (l : List Char) (key : Char) : Option Nat :=
  match l with
  | [] => none
  | x :: xs => if x = key then some 0 else (indexInChar xs key).map (· + 1)

/-- Loop body of `intPow` (binary exponentiation).  Each Go multiplication
wraps modulo `2 ^ 64`; the fuel argument only bounds the loop and never runs
out when it starts at `exp`, since `exp` at least halves on every turn. -/
def intPowAux : Nat → Nat → Nat → Nat → Nat
  | 0, _, _, result => result
  | fuel + 1, base, exp, result =>
    if exp = 0 then result
    else
      intPowAux fuel (base * base % w64) (exp / 2)
        (if exp % 2 = 1 then result * base % w64 else result)

/-- Model of `intPow`: binary exponentiation in Go's wrapping 64-bit
arithmetic. -/
def intPow (base exp : Nat) : Nat := intPowAux exp base exp 1

/-- Model of `MaxCombinations`: `int64(intPow(7, m)) * int64(intPow(12, p))`
with the product wrapping, reinterpreted as a signed 64-bit value. -/
def MaxCombinations (g : Config) : Int :=
  toSigned (intPow 7 g.JustIntonationDigits * intPow 12 g.EqualTemperamentDigits % w64)

/-- The digit array built by the decomposition loops of `PositionToID`:
`ndigits` base-`radix` digits of `value`, most significant first. -/
def toDigits (radix ndigits value : Nat) : List Nat :=
  match ndigits with
  | 0 => []
  | n + 1 => toDigits radix n (value / radix) ++ [value % radix]

/-- Model of `PositionToID`. -/
def PositionToID (g : Config) (position : Int) : List Char :=
  if position < 0 then []
  else
    let pos := position.toNat
    let equalMax := intPow 12 g.EqualTemperamentDigits
    let justValue := pos / equalMax
    let equalValue := pos % equalMax
    ((toDigits 7 g.JustIntonationDigits justValue).map
        (fun d => justIntonationBytes.getD d [])).flatten
      ++ g.Separator
      ++ (toDigits 12 g.EqualTemperamentDigits equalValue).map
        (fun d => equalTemperamentBytes.getD d ' ')

/-- Character-level form of the melody segment produced by `PositionToID`. -/
def renderJust (ds : List Nat) : List Char :=
  (ds.map (fun d => justIntonationBytes.getD d [])).flatten

/-- Character-level form of the pitch segment produced by `PositionToID`. -/
def renderPitch (ds : List Nat) : List Char :=
  ds.map (fun d => equalTemperamentBytes.getD d ' ')

/-- Boolean test whether `sep` is an initial segment of `s`. -/
def leadsWith : List Char → List Char → Bool
  | [], _ => true
  | _ :: _, [] => false
  | c :: cs, d :: ds => c = d && leadsWith cs ds

/-- Scanning loop of Go's `strings.Split` for a non-empty separator: cut at
every non-overlapping occurrence, left to right.  The fuel starts at the
length of the scanned list and never runs out. -/
def splitGoAux : Nat → List Char → List Char → List Char → List (List Char)
  | _, _, [], acc => [acc.reverse]
  | 0, _, s, acc => [acc.reverse ++ s]
  | fuel + 1, sep, c :: rest, acc =>
    if sep ≠ [] ∧ leadsWith sep (c :: rest) then
      acc.reverse :: splitGoAux fuel sep (List.drop (sep.length - 1) rest) []
    else splitGoAux fuel sep rest (c :: acc)

/-- Model of Go's `strings.Split`: an empty separator explodes the string into
one part per character, otherwise the string is cut at each occurrence of the
separator. -/
def splitGo (s sep : List Char) : List (List Char) :=
  if sep = [] then s.map (fun c => [c]) else splitGoAux s.length sep s []

/-- Parsing loop for the melody segment of `IDToPosition`: two characters at a
time, Horner accumulation in base 7 (`justIntonationLen`). -/
def parseJustAux : List Char → Nat → Option Nat
  | [], acc => some acc
  | [_], _ => none
  | c1 :: c2 :: rest, acc =>
    match indexIn justIntonationBytes [c1, c2] with
    | some i => parseJustAux rest (acc * 7 + i)
    | none => none

/-- Parsing loop for the pitch segment of `IDToPosition`: one character at a
time, Horner accumulation in base 12 (`equalTemperamentLen`). -/
def parsePitchAux : List Char → Nat → Option Nat
  | [], acc => some acc
  | c :: rest, acc =>
    match indexInChar equalTemperamentBytes c with
    | some i => parsePitchAux rest (acc * 12 + i)
    | none => none

/-- The two-character groups `justPart[i:i+2]` scanned by the melody parsing
loop of `IDToPosition` (a trailing odd character is never grouped). -/
def chunkPairs : List Char → List (List Char)
  | c1 :: c2 :: rest => [c1, c2] :: chunkPairs rest
  | _ => []

/-- Model of `IDToPosition`. -/
def IDToPosition (g : Config) (id : List Char) : Int :=
  match splitGo id g.Separator with
  | [justPart, equalPart] =>
    if justPart.length ≠ g.JustIntonationDigits * 2 ∨
        equalPart.length ≠ g.EqualTemperamentDigits then -1
    else
      match parseJustAux justPart 0 with
      | none => -1
      | some justValue =>
        match parsePitchAux equalPart 0 with
        | none => -1
        | some equalValue =>
          (justValue * intPow 12 g.EqualTemperamentDigits + equalValue : Int)
  | _ => -1

/-- Model of `BatchGenerateIDs`.  The addition `startPosition + count` wraps
exactly as Go's `int64` addition does. -/
def BatchGenerateIDs (g : Config) (count startPosition : Int) : List (List Char) :=
  if count ≤ 0 ∨ startPosition < 0 then []
  else
    let maxCombinations := MaxCombinations g
    if startPosition ≥ maxCombinations then []
    else
      let count₂ :=
        if wrapI64 (startPosition + count) > maxCombinations then
          maxCombinations - startPosition
        else count
      if count₂ ≤ 0 then []
      else (List.range count₂.toNat).map
        (fun i : Nat => PositionToID g (startPosition + (i : Int)))

/-- Parallel assignment `positions[i], positions[j] = positions[j], positions[i]`. -/
def swapL (l : List Nat) (i j : Nat) : List Nat :=
  (l.set i (l.getD j 0)).set j (l.getD i 0)

/-- Fisher-Yates loop of `randomSample`: iterate `i` from `max - 1` down to 1,
drawing `j := Intn(i + 1)` and swapping. -/
def shuffleAux : RandSrc → List Nat → Nat → List Nat × RandSrc
  | r, arr, 0 => (arr, r)
  | r, arr, k + 1 =>
    let pr := intn r (k + 2)
    shuffleAux pr.2 (swapL arr (k + 1) pr.1) k

/-- Rejection-sampling loop of `randomSample`: draw `Intn(max)` until `count`
distinct positions have been collected.  The Go loop is unbounded; the fuel
returns `none` for runs of the oracle that have not terminated yet. -/
def rejectAux (mx cnt : Nat) : Nat → RandSrc → List Nat → Option (List Nat × RandSrc)
  | fuel, r, acc =>
    if cnt ≤ acc.length then some (acc, r)
    else
      match fuel with
      | 0 => none
      | f + 1 =>
        let pr := intn r mx
        if pr.1 ∈ acc then rejectAux mx cnt f pr.2 acc
        else rejectAux mx cnt f pr.2 (acc ++ [pr.1])

/-- Model of `randomSample`. -/
def randomSample (r : RandSrc) (mx cnt : Nat) (fuel : Nat) : Option (List Nat × RandSrc) :=
  if mx ≤ cnt then
    let sh := shuffleAux r (List.range mx) (mx - 1)
    some (sh.1.take cnt, sh.2)
  else rejectAux mx cnt fuel r []

/-- Model of `BatchGenerateRandomIDs`. -/
def BatchGenerateRandomIDs (g : Config) (r : RandSrc) (fuel : Nat) (count : Int) :
    Option (List (List Char)) :=
  if count ≤ 0 then some []
  else
    let maxCombinations := MaxCombinations g
    if count > maxCombinations then some []
    else
      match randomSample r maxCombinations.toNat count.toNat fuel with
      | none => none
      | some (positions, _) =>
        some (positions.map (fun pos : Nat => PositionToID g (pos : Int)))

/-- A concrete oracle used to instantiate theorems on explicit inputs. -/
def natStream : RandSrc := ⟨fun n => n, 0⟩

/-! ### Arithmetic facts about `intPow` and `MaxCombinations` -/

theorem w64_pos : 0 < w64 := by norm_num [w64]

theorem intPowAux_eq (fuel : Nat) :
    ∀ base exp result, exp ≤ fuel → result < w64 →
      intPowAux fuel base exp result = result * base ^ exp % w64 := by
  induction fuel with
  | zero =>
    intro base exp result hle hres
    interval_cases exp
    simp [intPowAux, Nat.mod_eq_of_lt hres]
  | succ f ih =>
    intro base exp result hle hres
    rcases Nat.eq_zero_or_pos exp with hz | hpos
    · subst hz
      simp [intPowAux, Nat.mod_eq_of_lt hres]
    · have hne : exp ≠ 0 := Nat.pos_iff_ne_zero.mp hpos
      have hstep : exp / 2 ≤ f := by omega
      have hres2 : (if exp % 2 = 1 then result * base % w64 else result) < w64 := by
        split
        · exact Nat.mod_lt _ w64_pos
        · exact hres
      rw [intPowAux, if_neg hne, ih _ _ _ hstep hres2]
      have hbase : (base * base % w64) ^ (exp / 2) ≡ (base * base) ^ (exp / 2) [MOD w64] :=
        (Nat.mod_modEq (base * base) w64).pow _
      have hsplit : exp = 2 * (exp / 2) + exp % 2 := (Nat.div_add_mod' exp 2).symm ▸ by omega
      rcases Nat.mod_two_eq_zero_or_one exp with he | ho
      · rw [if_neg (by omega)]
        have : result * (base * base % w64) ^ (exp / 2) ≡ result * base ^ exp [MOD w64] := by
          calc result * (base * base % w64) ^ (exp / 2)
              ≡ result * (base * base) ^ (exp / 2) [MOD w64] := hbase.mul_left _
            _ = result * base ^ exp := by
                rw [← pow_two, ← pow_mul]
                have hexp : 2 * (exp / 2) = exp := by omega
                rw [hexp]
        exact this
      · rw [if_pos ho]
        have : result * base % w64 * (base * base % w64) ^ (exp / 2)
            ≡ result * base ^ exp [MOD w64] := by
          calc result * base % w64 * (base * base % w64) ^ (exp / 2)
              ≡ result * base * (base * base) ^ (exp / 2) [MOD w64] :=
                (Nat.mod_modEq (result * base) w64).mul hbase
            _ = result * (base ^ (2 * (exp / 2) + 1)) := by
                rw [← pow_two, ← pow_mul, pow_succ]
                ring
            _ = result * base ^ exp := by
                have hexp : 2 * (exp / 2) + 1 = exp := by omega
                rw [hexp]
        exact this

theorem intPow_eq (base exp : Nat) : intPow base exp = base ^ exp % w64 := by
  rw [intPow, intPowAux_eq exp base exp 1 le_rfl (by norm_num [w64]), one_mul]

theorem intPow_eq_of_lt {base exp : Nat} (h : base ^ exp < w64) :
    intPow base exp = base ^ exp := by
  rw [intPow_eq, Nat.mod_eq_of_lt h]

theorem toSigned_of_lt {u : Nat} (h : u < i64Half) : toSigned u = (u : Int) := by
  rw [toSigned, if_pos h]

/-- Under the representability hypothesis `7 ^ m * 12 ^ p < 2 ^ 63`,
`MaxCombinations` is the exact product. -/
theorem MaxCombinations_eq {m p : Nat} (sep : List Char)
    (hM : 7 ^ m * 12 ^ p < 2 ^ 63) :
    MaxCombinations ⟨m, p, sep⟩ = ((7 ^ m * 12 ^ p : Nat) : Int) := by
  have h7 : 7 ^ m < w64 := by
    have h12 : 0 < 12 ^ p := Nat.pos_pow_of_pos p (by norm_num)
    have : 7 ^ m ≤ 7 ^ m * 12 ^ p := Nat.le_mul_of_pos_right _ h12
    simp only [w64]
    omega
  have h12w : 12 ^ p < w64 := by
    have h7p : 0 < 7 ^ m := Nat.pos_pow_of_pos m (by norm_num)
    have : 12 ^ p ≤ 7 ^ m * 12 ^ p := Nat.le_mul_of_pos_left _ h7p
    simp only [w64]
    omega
  rw [MaxCombinations]
  simp only
  rw [intPow_eq_of_lt h7, intPow_eq_of_lt h12w,
    Nat.mod_eq_of_lt (by simp only [w64]; omega),
    toSigned_of_lt (by simp only [i64Half]; omega)]

theorem equalMax_exact {m p : Nat} (hM : 7 ^ m * 12 ^ p < 2 ^ 63) :
    intPow 12 p = 12 ^ p := by
  apply intPow_eq_of_lt
  have h7p : 0 < 7 ^ m := Nat.pos_pow_of_pos m (by norm_num)
  have : 12 ^ p ≤ 7 ^ m * 12 ^ p := Nat.le_mul_of_pos_left _ h7p
  simp only [w64]
  omega

/-! ### Digit decomposition -/

theorem toDigits_length (radix : Nat) : ∀ n v, (toDigits radix n v).length = n := by
  intro n
  induction n with
  | zero => intro v; rfl
  | succ k ih => intro v; simp [toDigits, ih]

theorem toDigits_lt (radix : Nat) (hr : 0 < radix) :
    ∀ n v, ∀ d ∈ toDigits radix n v, d < radix := by
  intro n
  induction n with
  | zero => intro v d hd; simp [toDigits] at hd
  | succ k ih =>
    intro v d hd
    simp only [toDigits, List.mem_append, List.mem_singleton] at hd
    rcases hd with hd | hd
    · exact ih _ _ hd
    · subst hd; exact Nat.mod_lt _ hr

theorem toDigits_foldl (radix : Nat) (hr : 0 < radix) :
    ∀ n v acc, v < radix ^ n →
      (toDigits radix n v).foldl (fun a d => a * radix + d) acc = acc * radix ^ n + v := by
  intro n
  induction n with
  | zero =>
    intro v acc hv
    have hv0 : v = 0 := by simpa [Nat.lt_one_iff] using hv
    subst hv0
    simp [toDigits]
  | succ k ih =>
    intro v acc hv
    have hdiv : v / radix < radix ^ k := by
      rw [Nat.div_lt_iff_lt_mul hr]
      calc v < radix ^ (k + 1) := hv
        _ = radix ^ k * radix := pow_succ radix k
    rw [toDigits, List.foldl_append, ih _ _ hdiv]
    simp only [List.foldl_cons, List.foldl_nil]
    rw [pow_succ]
    have := Nat.div_add_mod v radix
    ring_nf
    omega

theorem toDigits_mod (radix : Nat) :
    ∀ n v, toDigits radix n v = toDigits radix n (v % radix ^ n) := by
  intro n
  induction n with
  | zero => intro v; rfl
  | succ k ih =>
    intro v
    have h1 : v % radix ^ (k + 1) % radix = v % radix := by
      apply Nat.mod_mod_of_dvd
      exact dvd_pow_self radix (Nat.succ_ne_zero k)
    have h2 : v % radix ^ (k + 1) / radix = v / radix % radix ^ k := by
      rw [pow_succ, mul_comm]
      exact Nat.mod_mul_right_div_self v radix (radix ^ k)
    rw [toDigits, toDigits, h1, h2, ← ih]

/-! ### Rendering and parsing of the two segments -/

theorem note_getD_length : ∀ d, d < 7 → (justIntonationBytes.getD d []).length = 2 := by
  decide

theorem note_lookup : ∀ d, d < 7 →
    indexIn justIntonationBytes (justIntonationBytes.getD d []) = some d := by
  decide

theorem note_chars : ∀ d, d < 7 → ∀ c ∈ justIntonationBytes.getD d [], c ∈ symbolChars := by
  decide

theorem pitch_lookup : ∀ d, d < 12 →
    indexInChar equalTemperamentBytes (equalTemperamentBytes.getD d ' ') = some d := by
  decide

theorem pitch_chars : ∀ d, d < 12 → equalTemperamentBytes.getD d ' ' ∈ symbolChars := by
  decide

theorem renderJust_length {ds : List Nat} (h : ∀ d ∈ ds, d < 7) :
    (renderJust ds).length = ds.length * 2 := by
  induction ds with
  | nil => rfl
  | cons d rest ih =>
    have hd : d < 7 := h d (List.mem_cons_self d rest)
    have hrest : ∀ x ∈ rest, x < 7 := fun x hx => h x (List.mem_cons_of_mem d hx)
    simp only [renderJust, List.map_cons, List.flatten_cons, List.length_append,
      List.length_cons]
    rw [note_getD_length d hd]
    have := ih hrest
    simp only [renderJust] at this
    omega

theorem renderJust_chars {ds : List Nat} (h : ∀ d ∈ ds, d < 7) :
    ∀ c ∈ renderJust ds, c ∈ symbolChars := by
  intro c hc
  simp only [renderJust, List.mem_flatten, List.mem_map] at hc
  obtain ⟨l, ⟨d, hd, rfl⟩, hcl⟩ := hc
  exact note_chars d (h d hd) c hcl

theorem renderPitch_length (ds : List Nat) : (renderPitch ds).length = ds.length :=
  List.length_map ds _

theorem renderPitch_chars {ds : List Nat} (h : ∀ d ∈ ds, d < 12) :
    ∀ c ∈ renderPitch ds, c ∈ symbolChars := by
  intro c hc
  simp only [renderPitch, List.mem_map] at hc
  obtain ⟨d, hd, rfl⟩ := hc
  exact pitch_chars d (h d hd)

theorem parseJust_render {ds : List Nat} (h : ∀ d ∈ ds, d < 7) :
    ∀ acc, parseJustAux (renderJust ds) acc =
      some (ds.foldl (fun a d => a * 7 + d) acc) := by
  induction ds with
  | nil => intro acc; rfl
  | cons d rest ih =>
    intro acc
    have hd : d < 7 := h d (List.mem_cons_self d rest)
    have hrest : ∀ x ∈ rest, x < 7 := fun x hx => h x (List.mem_cons_of_mem d hx)
    obtain ⟨c1, c2, hchars⟩ := List.length_eq_two.mp (note_getD_length d hd)
    have hlook : indexIn justIntonationBytes [c1, c2] = some d := by
      rw [← hchars]
      exact note_lookup d hd
    simp only [renderJust, List.map_cons, List.flatten_cons, hchars, List.cons_append,
      List.nil_append, List.foldl_cons]
    rw [parseJustAux, hlook]
    exact ih hrest _

theorem parsePitch_render {ds : List Nat} (h : ∀ d ∈ ds, d < 12) :
    ∀ acc, parsePitchAux (renderPitch ds) acc =
      some (ds.foldl (fun a d => a * 12 + d) acc) := by
  induction ds with
  | nil => intro acc; rfl
  | cons d rest ih =>
    intro acc
    have hd : d < 12 := h d (List.mem_cons_self d rest)
    have hrest : ∀ x ∈ rest, x < 12 := fun x hx => h x (List.mem_cons_of_mem d hx)
    simp only [renderPitch, List.map_cons, List.foldl_cons]
    rw [parsePitchAux, pitch_lookup d hd]
    exact ih hrest _

/-! ### Behaviour of the `strings.Split` model -/

theorem leadsWith_append (sep b : List Char) : leadsWith sep (sep ++ b) = true := by
  induction sep with
  | nil => rfl
  | cons c cs ih => simp [leadsWith, ih]

theorem splitGoAux_no_occurrence {s0 : Char} {ss b : List Char} (hb : s0 ∉ b) :
    ∀ fuel, b.length ≤ fuel → ∀ acc,
      splitGoAux fuel (s0 :: ss) b acc = [acc.reverse ++ b] := by
  induction b with
  | nil =>
    intro fuel _ acc
    cases fuel <;> simp [splitGoAux]
  | cons c rest ih =>
    intro fuel hfuel acc
    have hcs : c ≠ s0 := fun hcontra => hb (hcontra ▸ List.mem_cons_self c rest)
    obtain ⟨f, rfl⟩ : ∃ f, fuel = f + 1 := by
      cases fuel
      · simp at hfuel
      · exact ⟨_, rfl⟩
    have hlw : leadsWith (s0 :: ss) (c :: rest) = false := by
      simp [leadsWith, Ne.symm hcs]
    rw [splitGoAux, if_neg (by simp [hlw])]
    have hrest : s0 ∉ rest := fun hmem => hb (List.mem_cons_of_mem c hmem)
    rw [ih hrest f (by simpa using Nat.le_of_succ_le_succ hfuel) (c :: acc)]
    simp

theorem splitGoAux_through {s0 : Char} {ss a b : List Char}
    (ha : s0 ∉ a) (hb : s0 ∉ b) :
    ∀ fuel, (a ++ (s0 :: ss) ++ b).length ≤ fuel → ∀ acc,
      splitGoAux fuel (s0 :: ss) (a ++ (s0 :: ss) ++ b) acc = [acc.reverse ++ a, b] := by
  induction a with
  | nil =>
    intro fuel hfuel acc
    obtain ⟨f, rfl⟩ : ∃ f, fuel = f + 1 := by
      cases fuel
      · simp at hfuel
      · exact ⟨_, rfl⟩
    simp only [List.nil_append, List.cons_append] at hfuel ⊢
    rw [splitGoAux, if_pos ⟨List.cons_ne_nil s0 ss, by
      have := leadsWith_append (s0 :: ss) b
      simpa using this⟩]
    have hdrop : List.drop ((s0 :: ss).length - 1) (ss ++ b) = b := by
      simp only [List.length_cons, Nat.add_sub_cancel]
      exact List.drop_left ss b
    rw [hdrop]
    rw [splitGoAux_no_occurrence hb f (by simp at hfuel; omega) []]
    simp
  | cons c a' ih =>
    intro fuel hfuel acc
    obtain ⟨f, rfl⟩ : ∃ f, fuel = f + 1 := by
      cases fuel
      · simp at hfuel
      · exact ⟨_, rfl⟩
    have hcs : c ≠ s0 := fun hcontra => ha (hcontra ▸ List.mem_cons_self c a')
    have hlw : ∀ t : List Char, leadsWith (s0 :: ss) (c :: t) = false := by
      intro t
      simp [leadsWith, Ne.symm hcs]
    have ha' : s0 ∉ a' := fun hmem => ha (List.mem_cons_of_mem c hmem)
    simp only [List.cons_append] at hfuel ⊢
    rw [splitGoAux, if_neg (by simp [hlw])]
    have hfa : (a' ++ (s0 :: ss) ++ b).length ≤ f := by
      simp only [List.length_append, List.length_cons] at hfuel ⊢
      omega
    rw [ih ha' f hfa (c :: acc)]
    simp

theorem splitGo_exact {s0 : Char} {ss a b : List Char} (ha : s0 ∉ a) (hb : s0 ∉ b) :
    splitGo (a ++ (s0 :: ss) ++ b) (s0 :: ss) = [a, b] := by
  rw [splitGo, if_neg (List.cons_ne_nil s0 ss)]
  rw [splitGoAux_through ha hb _ le_rfl []]
  simp

/-! ### The codec round-trip -/

theorem PositionToID_shape (m p : Nat) (sep : List Char) (pos : Nat)
    (hM : 7 ^ m * 12 ^ p < 2 ^ 63) :
    PositionToID ⟨m, p, sep⟩ (pos : Int) =
      renderJust (toDigits 7 m (pos / 12 ^ p)) ++ sep ++
        renderPitch (toDigits 12 p (pos % 12 ^ p)) := by
  rw [PositionToID, if_neg (by omega : ¬ ((pos : Int) < 0))]
  simp [renderJust, renderPitch, equalMax_exact hM]

theorem IDToPosition_two (g : Config) (id a b : List Char)
    (hsplit : splitGo id g.Separator = [a, b]) :
    IDToPosition g id =
      if a.length ≠ g.JustIntonationDigits * 2 ∨ b.length ≠ g.EqualTemperamentDigits then -1
      else
        match parseJustAux a 0 with
        | none => -1
        | some justValue =>
          match parsePitchAux b 0 with
          | none => -1
          | some equalValue =>
            (justValue * intPow 12 g.EqualTemperamentDigits + equalValue : Int) := by
  rw [IDToPosition, hsplit]

theorem IDToPosition_success (g : Config) (id a b : List Char) (j e : Nat)
    (hsplit : splitGo id g.Separator = [a, b])
    (hla : a.length = g.JustIntonationDigits * 2)
    (hlb : b.length = g.EqualTemperamentDigits)
    (hja : parseJustAux a 0 = some j) (hpb : parsePitchAux b 0 = some e) :
    IDToPosition g id = (j * intPow 12 g.EqualTemperamentDigits + e : Int) := by
  rw [IDToPosition, hsplit]
  simp [hla, hlb, hja, hpb]

theorem roundtrip_nat {m p : Nat} {s0 : Char} {ss : List Char}
    (hs : s0 ∉ symbolChars) (hM : 7 ^ m * 12 ^ p < 2 ^ 63)
    {pos : Nat} (hpos : pos < 7 ^ m * 12 ^ p) :
    IDToPosition ⟨m, p, s0 :: ss⟩ (PositionToID ⟨m, p, s0 :: ss⟩ (pos : Int)) =
      (pos : Int) := by
  have h12 : 0 < 12 ^ p := Nat.pos_pow_of_pos p (by norm_num)
  have hj : pos / 12 ^ p < 7 ^ m := (Nat.div_lt_iff_lt_mul h12).mpr hpos
  have he : pos % 12 ^ p < 12 ^ p := Nat.mod_lt _ h12
  have hdJ : ∀ d ∈ toDigits 7 m (pos / 12 ^ p), d < 7 :=
    toDigits_lt 7 (by norm_num) m _
  have hdE : ∀ d ∈ toDigits 12 p (pos % 12 ^ p), d < 12 :=
    toDigits_lt 12 (by norm_num) p _
  have hsJ : s0 ∉ renderJust (toDigits 7 m (pos / 12 ^ p)) := by
    intro hmem
    exact hs (renderJust_chars hdJ s0 hmem)
  have hsE : s0 ∉ renderPitch (toDigits 12 p (pos % 12 ^ p)) := by
    intro hmem
    exact hs (renderPitch_chars hdE s0 hmem)
  have hlenJ : (renderJust (toDigits 7 m (pos / 12 ^ p))).length = m * 2 := by
    rw [renderJust_length hdJ, toDigits_length]
  have hlenE : (renderPitch (toDigits 12 p (pos % 12 ^ p))).length = p := by
    rw [renderPitch_length, toDigits_length]
  have hja := parseJust_render hdJ 0
  rw [toDigits_foldl 7 (by norm_num) m _ 0 hj, zero_mul, zero_add] at hja
  have hpb := parsePitch_render hdE 0
  rw [toDigits_foldl 12 (by norm_num) p _ 0 he, zero_mul, zero_add] at hpb
  rw [PositionToID_shape m p (s0 :: ss) pos hM,
    IDToPosition_success _ _ _ _ _ _ (splitGo_exact hsJ hsE) hlenJ hlenE hja hpb,
    equalMax_exact hM]
  exact_mod_cast Nat.div_add_mod' pos (12 ^ p)

/-- Injectivity of `PositionToID` on the valid range; this does not depend on
the separator at all, because both segments are fixed-width. -/
theorem PositionToID_injOn {m p : Nat} {s0 : Char} {ss : List Char}
    (hs : s0 ∉ symbolChars) (hM : 7 ^ m * 12 ^ p < 2 ^ 63)
    {x y : Nat} (hx : x < 7 ^ m * 12 ^ p) (hy : y < 7 ^ m * 12 ^ p)
    (hxy : PositionToID ⟨m, p, s0 :: ss⟩ (x : Int) =
      PositionToID ⟨m, p, s0 :: ss⟩ (y : Int)) : x = y := by
  have hx' := @roundtrip_nat m p s0 ss hs hM x hx
  have hy' := @roundtrip_nat m p s0 ss hs hM y hy
  rw [hxy] at hx'
  rw [hx'] at hy'
  exact_mod_cast hy'

/-! ### Bounds on parsed values -/

theorem indexIn_lt {l : List (List Char)} {key : List Char} {i : Nat}
    (h : indexIn l key = some i) : i < l.length := by
  induction l generalizing i with
  | nil => simp [indexIn] at h
  | cons x xs ih =>
    rw [indexIn] at h
    split at h
    · simp only [Option.some_inj] at h
      simp [← h]
    · simp only [Option.map_eq_some'] at h
      obtain ⟨i', hi', rfl⟩ := h
      have := ih hi'
      simp only [List.length_cons]
      omega

theorem indexInChar_lt {l : List Char} {key : Char} {i : Nat}
    (h : indexInChar l key = some i) : i < l.length := by
  induction l generalizing i with
  | nil => simp [indexInChar] at h
  | cons x xs ih =>
    rw [indexInChar] at h
    split at h
    · simp only [Option.some_inj] at h
      simp [← h]
    · simp only [Option.map_eq_some'] at h
      obtain ⟨i', hi', rfl⟩ := h
      have := ih hi'
      simp only [List.length_cons]
      omega

theorem parseJustAux_lt_aux : ∀ n chars acc v, chars.length ≤ n →
    parseJustAux chars acc = some v → v < (acc + 1) * 7 ^ (chars.length / 2) := by
  intro n
  induction n with
  | zero =>
    intro chars acc v hlen h
    rcases chars with _ | ⟨c, rest⟩
    · rw [parseJustAux] at h
      simp only [Option.some_inj] at h
      simp [← h]
    · simp at hlen
  | succ k ih =>
    intro chars acc v hlen h
    rcases chars with _ | ⟨c1, _ | ⟨c2, rest⟩⟩
    · rw [parseJustAux] at h
      simp only [Option.some_inj] at h
      simp [← h]
    · rw [parseJustAux] at h
      simp at h
    · rw [parseJustAux] at h
      rcases hidx : indexIn justIntonationBytes [c1, c2] with _ | i
      · rw [hidx] at h
        simp at h
      · rw [hidx] at h
        have hb := indexIn_lt hidx
        simp only [justIntonationBytes, List.length_cons, List.length_nil] at hb
        have hrest : rest.length ≤ k := by
          simp only [List.length_cons] at hlen
          omega
        have := ih rest _ _ hrest h
        have hlen2 : (c1 :: c2 :: rest).length / 2 = rest.length / 2 + 1 := by
          simp only [List.length_cons]
          omega
        rw [hlen2, pow_succ]
        calc v < (acc * 7 + i + 1) * 7 ^ (rest.length / 2) := this
          _ ≤ ((acc + 1) * 7) * 7 ^ (rest.length / 2) := by
              apply Nat.mul_le_mul_right
              omega
          _ = (acc + 1) * (7 ^ (rest.length / 2) * 7) := by ring

theorem parseJustAux_lt {chars : List Char} {acc v : Nat}
    (h : parseJustAux chars acc = some v) : v < (acc + 1) * 7 ^ (chars.length / 2) :=
  parseJustAux_lt_aux chars.length chars acc v le_rfl h

theorem parsePitchAux_lt : ∀ chars acc v, parsePitchAux chars acc = some v →
    v < (acc + 1) * 12 ^ chars.length := by
  intro chars
  induction chars with
  | nil =>
    intro acc v h
    rw [parsePitchAux] at h
    simp only [Option.some_inj] at h
    simp [← h]
  | cons c rest ih =>
    intro acc v h
    rw [parsePitchAux] at h
    rcases hidx : indexInChar equalTemperamentBytes c with _ | i
    · rw [hidx] at h
      simp at h
    · rw [hidx] at h
      have hb := indexInChar_lt hidx
      simp only [equalTemperamentBytes, List.length_cons, List.length_nil] at hb
      have := ih _ _ h
      simp only [List.length_cons, pow_succ]
      calc v < (acc * 12 + i + 1) * 12 ^ rest.length := this
        _ ≤ ((acc + 1) * 12) * 12 ^ rest.length := by
            apply Nat.mul_le_mul_right
            omega
        _ = (acc + 1) * (12 ^ rest.length * 12) := by ring

/-! ### Failure conditions of `IDToPosition` -/

theorem parseJustAux_none_aux : ∀ n chars, chars.length ≤ n →
    (∃ pr ∈ chunkPairs chars, indexIn justIntonationBytes pr = none) →
    ∀ acc, parseJustAux chars acc = none := by
  intro n
  induction n with
  | zero =>
    intro chars hlen hbad acc
    rcases chars with _ | ⟨c, rest⟩
    · simp [chunkPairs] at hbad
    · simp at hlen
  | succ k ih =>
    intro chars hlen hbad acc
    rcases chars with _ | ⟨c1, _ | ⟨c2, rest⟩⟩
    · simp [chunkPairs] at hbad
    · rw [parseJustAux]
    · rcases hidx : indexIn justIntonationBytes [c1, c2] with _ | i
      · rw [parseJustAux, hidx]
      · rw [parseJustAux, hidx]
        obtain ⟨pr, hpr, hnone⟩ := hbad
        simp only [chunkPairs, List.mem_cons] at hpr
        rcases hpr with rfl | hpr
        · rw [hidx] at hnone
          simp at hnone
        · apply ih rest
          · simp only [List.length_cons] at hlen
            omega
          · exact ⟨pr, hpr, hnone⟩

theorem parseJustAux_none {chars : List Char}
    (hbad : ∃ pr ∈ chunkPairs chars, indexIn justIntonationBytes pr = none) (acc : Nat) :
    parseJustAux chars acc = none :=
  parseJustAux_none_aux chars.length chars le_rfl hbad acc

theorem parsePitchAux_none : ∀ chars, (∃ c ∈ chars, indexInChar equalTemperamentBytes c = none) →
    ∀ acc, parsePitchAux chars acc = none := by
  intro chars
  induction chars with
  | nil =>
    intro hbad acc
    simp at hbad
  | cons c rest ih =>
    intro hbad acc
    rcases hidx : indexInChar equalTemperamentBytes c with _ | i
    · rw [parsePitchAux, hidx]
    · rw [parsePitchAux, hidx]
      obtain ⟨c', hc', hnone⟩ := hbad
      simp only [List.mem_cons] at hc'
      rcases hc' with rfl | hc'
      · rw [hidx] at hnone
        simp at hnone
      · exact ih ⟨c', hc', hnone⟩ _

theorem IDToPosition_not_two_parts {g : Config} {id : List Char}
    (h : (splitGo id g.Separator).length ≠ 2) : IDToPosition g id = -1 := by
  rcases hsplit : splitGo id g.Separator with _ | ⟨a, _ | ⟨b, _ | ⟨c, t⟩⟩⟩ <;>
    (rw [hsplit] at h; (try simp [IDToPosition, hsplit]); (try simp at h))

theorem IDToPosition_bad_lengths {g : Config} {id a b : List Char}
    (hsplit : splitGo id g.Separator = [a, b])
    (h : a.length ≠ g.JustIntonationDigits * 2 ∨ b.length ≠ g.EqualTemperamentDigits) :
    IDToPosition g id = -1 := by
  rw [IDToPosition, hsplit]
  simp only [if_pos h]

theorem IDToPosition_bad_symbol {g : Config} {id a b : List Char}
    (hsplit : splitGo id g.Separator = [a, b])
    (h : (∃ pr ∈ chunkPairs a, indexIn justIntonationBytes pr = none) ∨
      (∃ c ∈ b, indexInChar equalTemperamentBytes c = none)) :
    IDToPosition g id = -1 := by
  by_cases hlen : a.length ≠ g.JustIntonationDigits * 2 ∨ b.length ≠ g.EqualTemperamentDigits
  · exact IDToPosition_bad_lengths hsplit hlen
  · rw [IDToPosition_two g id a b hsplit, if_neg hlen]
    rcases h with hbad | hbad
    · rw [parseJustAux_none hbad 0]
    · rcases hja : parseJustAux a 0 with _ | j
      · rfl
      · rw [parsePitchAux_none b hbad 0]

/-- Any successfully decoded identifier lies in `[0, 7 ^ m * 12 ^ p)`. -/
theorem IDToPosition_range {m p : Nat} (sep : List Char) (hM : 7 ^ m * 12 ^ p < 2 ^ 63)
    (id : List Char) :
    IDToPosition ⟨m, p, sep⟩ id = -1 ∨
      (0 ≤ IDToPosition ⟨m, p, sep⟩ id ∧
        IDToPosition ⟨m, p, sep⟩ id < ((7 ^ m * 12 ^ p : Nat) : Int)) := by
  rcases Nat.decEq (splitGo id sep).length 2 with hn | hy
  case _ =>
    left
    exact IDToPosition_not_two_parts hn
  case _ =>
    obtain ⟨a, b, hsplit⟩ : ∃ a b, splitGo id sep = [a, b] := by
      rcases hsp : splitGo id sep with _ | ⟨a, _ | ⟨b, _ | ⟨c, t⟩⟩⟩ <;>
        rw [hsp] at hy <;> simp at hy
      exact ⟨a, b, rfl⟩
    by_cases hlen : a.length ≠ m * 2 ∨ b.length ≠ p
    · left
      exact IDToPosition_bad_lengths hsplit hlen
    · push_neg at hlen
      obtain ⟨hla, hlb⟩ := hlen
      rcases hja : parseJustAux a 0 with _ | j
      · left
        rw [IDToPosition_two ⟨m, p, sep⟩ id a b hsplit, if_neg (by simp [hla, hlb]), hja]
      · rcases hpb : parsePitchAux b 0 with _ | e
        · left
          rw [IDToPosition_two ⟨m, p, sep⟩ id a b hsplit, if_neg (by simp [hla, hlb]),
            hja, hpb]
        · right
          have hval := IDToPosition_success ⟨m, p, sep⟩ id a b j e hsplit hla hlb hja hpb
          rw [hval, equalMax_exact hM]
          have hj := parseJustAux_lt hja
          rw [hla] at hj
          have hm2 : m * 2 / 2 = m := Nat.mul_div_cancel m (by norm_num)
          rw [hm2] at hj
          have hj2 : j < 7 ^ m := by omega
          have he := parsePitchAux_lt b 0 e hpb
          rw [hlb] at he
          have he2 : e < 12 ^ p := by omega
          have hnat : j * 12 ^ p + e < 7 ^ m * 12 ^ p := by
            calc j * 12 ^ p + e < j * 12 ^ p + 12 ^ p := by omega
              _ = (j + 1) * 12 ^ p := by ring
              _ ≤ 7 ^ m * 12 ^ p := Nat.mul_le_mul_right _ (by omega)
          constructor
          · positivity
          · exact_mod_cast hnat

theorem PositionToID_shape_raw (g : Config) (pos : Nat) :
    PositionToID g (pos : Int) =
      renderJust (toDigits 7 g.JustIntonationDigits
          (pos / intPow 12 g.EqualTemperamentDigits)) ++
        g.Separator ++
        renderPitch (toDigits 12 g.EqualTemperamentDigits
          (pos % intPow 12 g.EqualTemperamentDigits)) := by
  rw [PositionToID, if_neg (by omega : ¬ ((pos : Int) < 0))]
  simp [renderJust, renderPitch]

/-! ### Claim theorems -/

/-- C1 (amended): for every configuration whose separator is non-empty and
starts with a character that is not a melody or pitch symbol character, and
whose combination count fits a signed 64-bit integer, every position in
`[0, maxCombinations)` round-trips: `IDToPosition (PositionToID position) =
position`.  The original claim also asserted this for the empty separator,
which is refuted by `claim1_counterexample`. -/
theorem claim1_roundtrip : ∀ (m p : Nat) (s0 : Char) (ss : List Char) (position : Int),
    s0 ∉ symbolChars → 7 ^ m * 12 ^ p < 2 ^ 63 →
    0 ≤ position → position < MaxCombinations ⟨m, p, s0 :: ss⟩ →
    IDToPosition ⟨m, p, s0 :: ss⟩ (PositionToID ⟨m, p, s0 :: ss⟩ position) = position := by
  intro m p s0 ss position hs hM h0 hlt
  rw [MaxCombinations_eq (s0 :: ss) hM] at hlt
  have hpos : position = ((position.toNat : Nat) : Int) := (Int.toNat_of_nonneg h0).symm
  rw [hpos]
  apply roundtrip_nat hs hM
  omega

/-- C1 counterexample: with an empty separator (configuration
`(melodyDigits 1, pitchDigits 2, separator "")`), position 0 is in range but
`IDToPosition (PositionToID 0) = -1 ≠ 0`: Go's `strings.Split` with an empty
separator explodes the identifier into one part per character, so the
two-part check always fails. -/
theorem claim1_counterexample :
    (0 : Int) < MaxCombinations ⟨1, 2, []⟩ ∧
      IDToPosition ⟨1, 2, []⟩ (PositionToID ⟨1, 2, []⟩ 0) = -1 := by
  decide

theorem claim1_witness :
    IDToPosition ⟨1, 2, ['-']⟩ (PositionToID ⟨1, 2, ['-']⟩ 100) = 100 :=
  claim1_roundtrip 1 2 '-' [] 100 (by decide) (by norm_num) (by norm_num) (by decide)

/-- C2 (amended): whenever `7 ^ m * 12 ^ p` fits a signed 64-bit integer,
`MaxCombinations` returns exactly that product; for `(melodyDigits 4,
pitchDigits 5)` the value is 597445632 (the figure 597394032 quoted in the
original claim is an arithmetic error, refuted by `claim2_counterexample`,
which also shows the wrap for a configuration whose product overflows). -/
theorem claim2_max_combinations :
    (∀ (m p : Nat) (sep : List Char), 7 ^ m * 12 ^ p < 2 ^ 63 →
      MaxCombinations ⟨m, p, sep⟩ = ((7 ^ m * 12 ^ p : Nat) : Int)) ∧
    MaxCombinations ⟨4, 5, ['-']⟩ = 597445632 :=
  ⟨fun _ _ sep hM => MaxCombinations_eq sep hM, by decide⟩

/-- C2 counterexample: `MaxCombinations` for `(4, 5)` is not the claimed
597394032 (the true product 7^4 * 12^5 is 597445632), and for `(1, 20)` the
64-bit product wraps, so the result is not `7 * 12 ^ 20` either. -/
theorem claim2_counterexample :
    MaxCombinations ⟨4, 5, ['-']⟩ ≠ 597394032 ∧
      MaxCombinations ⟨1, 20, ['-']⟩ ≠ ((7 * 12 ^ 20 : Nat) : Int) := by
  decide

theorem claim2_witness :
    MaxCombinations ⟨4, 5, ['-']⟩ = ((7 ^ 4 * 12 ^ 5 : Nat) : Int) :=
  claim2_max_combinations.1 4 5 ['-'] (by norm_num)

/-- C6: `IDToPosition` returns -1 whenever the split does not yield exactly
two segments, or a segment has the wrong length, or a melody pair or pitch
character is not in its alphabet; in particular the three literal examples
under the configuration `(1, 2, "-")` all return -1. -/
theorem claim6_format_validation :
    (∀ (g : Config) (id : List Char),
      (splitGo id g.Separator).length ≠ 2 → IDToPosition g id = -1) ∧
    (∀ (g : Config) (id a b : List Char), splitGo id g.Separator = [a, b] →
      (a.length ≠ g.JustIntonationDigits * 2 ∨ b.length ≠ g.EqualTemperamentDigits) →
      IDToPosition g id = -1) ∧
    (∀ (g : Config) (id a b : List Char), splitGo id g.Separator = [a, b] →
      ((∃ pr ∈ chunkPairs a, indexIn justIntonationBytes pr = none) ∨
        (∃ c ∈ b, indexInChar equalTemperamentBytes c = none)) →
      IDToPosition g id = -1) ∧
    IDToPosition ⟨1, 2, ['-']⟩ "do00".toList = -1 ∧
    IDToPosition ⟨1, 2, ['-']⟩ "d-00".toList = -1 ∧
    IDToPosition ⟨1, 2, ['-']⟩ "dx-00".toList = -1 :=
  ⟨fun _ _ h => IDToPosition_not_two_parts h,
    fun _ _ _ _ hsplit h => IDToPosition_bad_lengths hsplit h,
    fun _ _ _ _ hsplit h => IDToPosition_bad_symbol hsplit h,
    by decide, by decide, by decide⟩

theorem claim6_witness : IDToPosition ⟨1, 2, ['-']⟩ "xx".toList = -1 :=
  claim6_format_validation.1 ⟨1, 2, ['-']⟩ "xx".toList (by decide)

/-- C7: for configurations with at least one melody digit and one pitch
digit, `PositionToID` returns the empty string exactly for negative
positions; every non-negative position, including positions at or beyond
`maxCombinations`, yields a non-empty identifier (there is no bounds check). -/
theorem claim7_empty_iff_negative :
    ∀ (m p : Nat) (sep : List Char) (position : Int), 1 ≤ m → 1 ≤ p →
      (PositionToID ⟨m, p, sep⟩ position = [] ↔ position < 0) := by
  intro m p sep position hm _hp
  constructor
  · intro hEmpty
    by_contra hneg
    have h0 : 0 ≤ position := by omega
    have hpos : position = ((position.toNat : Nat) : Int) := (Int.toNat_of_nonneg h0).symm
    rw [hpos, PositionToID_shape_raw] at hEmpty
    have hdJ : ∀ d ∈ toDigits 7 m (position.toNat / intPow 12 p), d < 7 :=
      toDigits_lt 7 (by norm_num) m _
    have hlen := congrArg List.length hEmpty
    simp only [List.length_append, List.length_nil] at hlen
    have hrj : (renderJust (toDigits 7 m (position.toNat / intPow 12 p))).length = m * 2 := by
      rw [renderJust_length hdJ, toDigits_length]
    omega
  · intro h
    rw [PositionToID, if_pos h]

theorem claim7_witness : PositionToID ⟨1, 1, ['-']⟩ 100 ≠ [] := by
  intro h
  have := (claim7_empty_iff_negative 1 1 ['-'] 100 (by norm_num) (by norm_num)).mp h
  norm_num at this

/-- C8: the four literal examples of the specification under the
configuration `(melodyDigits 1, pitchDigits 2, separator "-")`. -/
theorem claim8_literal_examples :
    PositionToID ⟨1, 2, ['-']⟩ 0 = "do-00".toList ∧
      PositionToID ⟨1, 2, ['-']⟩ 1 = "do-01".toList ∧
      PositionToID ⟨1, 2, ['-']⟩ 12 = "do-10".toList ∧
      PositionToID ⟨1, 2, ['-']⟩ 144 = "re-00".toList := by
  decide

/-- C9: out-of-range positions wrap around: for every configuration with at
least one digit on each side whose combination count fits a signed 64-bit
integer, `PositionToID p = PositionToID (p % maxCombinations)` for every
non-negative `p`. -/
theorem claim9_wraparound :
    ∀ (m p : Nat) (sep : List Char) (pos : Nat), 1 ≤ m → 1 ≤ p →
      7 ^ m * 12 ^ p < 2 ^ 63 →
      PositionToID ⟨m, p, sep⟩ (pos : Int) =
        PositionToID ⟨m, p, sep⟩
          ((pos % (MaxCombinations ⟨m, p, sep⟩).toNat : Nat) : Int) := by
  intro m p sep pos _hm _hp hM
  have hmax : (MaxCombinations ⟨m, p, sep⟩).toNat = 7 ^ m * 12 ^ p := by
    rw [MaxCombinations_eq sep hM]
    exact Int.toNat_natCast _
  rw [hmax, PositionToID_shape m p sep pos hM, PositionToID_shape m p sep _ hM]
  have h1 : pos % (7 ^ m * 12 ^ p) / 12 ^ p = pos / 12 ^ p % 7 ^ m := by
    rw [mul_comm (7 ^ m)]
    exact Nat.mod_mul_right_div_self pos (12 ^ p) (7 ^ m)
  have h2 : pos % (7 ^ m * 12 ^ p) % 12 ^ p = pos % 12 ^ p :=
    Nat.mod_mod_of_dvd pos (dvd_mul_left (12 ^ p) (7 ^ m))
  have e1 : toDigits 7 m (pos % (7 ^ m * 12 ^ p) / 12 ^ p) = toDigits 7 m (pos / 12 ^ p) := by
    rw [h1, ← toDigits_mod]
  have e2 : toDigits 12 p (pos % (7 ^ m * 12 ^ p) % 12 ^ p) =
      toDigits 12 p (pos % 12 ^ p) := by
    rw [h2]
  rw [e1, e2]

theorem claim9_witness :
    PositionToID ⟨1, 1, ['-']⟩ ((100 : Nat) : Int) =
      PositionToID ⟨1, 1, ['-']⟩
        ((100 % (MaxCombinations ⟨1, 1, ['-']⟩).toNat : Nat) : Int) :=
  claim9_wraparound 1 1 ['-'] 100 (by norm_num) (by norm_num) (by norm_num)

/-- C10: for every configuration with at least one digit on each side whose
combination count fits a signed 64-bit integer, `IDToPosition` returns either
-1 or a position in `[0, maxCombinations)`. -/
theorem claim10_decode_range :
    ∀ (m p : Nat) (sep : List Char) (id : List Char), 1 ≤ m → 1 ≤ p →
      7 ^ m * 12 ^ p < 2 ^ 63 →
      IDToPosition ⟨m, p, sep⟩ id = -1 ∨
        (0 ≤ IDToPosition ⟨m, p, sep⟩ id ∧
          IDToPosition ⟨m, p, sep⟩ id < MaxCombinations ⟨m, p, sep⟩) := by
  intro m p sep id _hm _hp hM
  have := IDToPosition_range sep hM id
  rw [MaxCombinations_eq sep hM]
  exact this

theorem claim10_witness :
    IDToPosition ⟨1, 1, ['-']⟩ "do-0".toList = -1 ∨
      (0 ≤ IDToPosition ⟨1, 1, ['-']⟩ "do-0".toList ∧
        IDToPosition ⟨1, 1, ['-']⟩ "do-0".toList < MaxCombinations ⟨1, 1, ['-']⟩) :=
  claim10_decode_range 1 1 ['-'] "do-0".toList (by norm_num) (by norm_num) (by norm_num)

/-! ### Sequential batch generation -/

theorem wrapI64_eq {x : Int} (h0 : 0 ≤ x) (h1 : x < 2 ^ 63) : wrapI64 x = x := by
  have hw : ((w64 : Nat) : Int) = 18446744073709551616 := by norm_num [w64]
  have hh : ((i64Half : Nat) : Int) = 9223372036854775808 := by norm_num [i64Half]
  have h1' : x < 9223372036854775808 := by
    calc x < 2 ^ 63 := h1
      _ = 9223372036854775808 := by norm_num
  rw [wrapI64, hw, hh]
  omega

theorem MaxCombinations_lt_half (g : Config) : MaxCombinations g < 2 ^ 63 := by
  rw [MaxCombinations, toSigned]
  have hmod : intPow 7 g.JustIntonationDigits * intPow 12 g.EqualTemperamentDigits % w64
      < w64 := Nat.mod_lt _ w64_pos
  split
  case isTrue h =>
    have : (2 ^ 63 : Int) = ((i64Half : Nat) : Int) := by norm_num [i64Half]
    omega
  case isFalse h =>
    have hw : ((w64 : Nat) : Int) = 18446744073709551616 := by norm_num [w64]
    have : (2 ^ 63 : Int) = 9223372036854775808 := by norm_num
    omega

/-- C4 (amended): for every `count > 0` and in-range `startPosition` such
that `startPosition + count` does not overflow a signed 64-bit integer,
`BatchGenerateIDs` returns exactly `min count (maxCombinations -
startPosition)` identifiers, the `i`-th being `PositionToID (startPosition +
i)`.  Without the overflow restriction the clamp is skipped
(`claim4_counterexample`). -/
theorem claim4_sequential_batch :
    ∀ (m p : Nat) (sep : List Char) (count startPosition : Int),
      0 < count → 0 ≤ startPosition →
      startPosition < MaxCombinations ⟨m, p, sep⟩ →
      startPosition + count < 2 ^ 63 →
      BatchGenerateIDs ⟨m, p, sep⟩ count startPosition =
        (List.range ((min count (MaxCombinations ⟨m, p, sep⟩ - startPosition)).toNat)).map
          (fun i : Nat => PositionToID ⟨m, p, sep⟩ (startPosition + (i : Int))) := by
  intro m p sep count startPosition hc h0 hlt hsum
  simp only [BatchGenerateIDs]
  rw [if_neg (by omega), if_neg (by omega)]
  rw [wrapI64_eq (by omega) hsum]
  by_cases hclamp : startPosition + count > MaxCombinations ⟨m, p, sep⟩
  · rw [if_pos hclamp, if_neg (by omega)]
    have hmin : min count (MaxCombinations ⟨m, p, sep⟩ - startPosition) =
        MaxCombinations ⟨m, p, sep⟩ - startPosition := by omega
    rw [hmin]
  · rw [if_neg hclamp, if_neg (by omega)]
    have hmin : min count (MaxCombinations ⟨m, p, sep⟩ - startPosition) = count := by omega
    rw [hmin]

/-- C4 counterexample: with the configuration `(1, 1, "-")`
(`maxCombinations = 84`), `count = 2 ^ 63 - 1` and `startPosition = 83`, the
claim demands exactly `min count (84 - 83) = 1` identifier, but
`startPosition + count` wraps to a negative value, the clamp is skipped, and
the unclamped count is used (in Go the subsequent `make([]string, count)`
panics). -/
theorem claim4_counterexample :
    (BatchGenerateIDs ⟨1, 1, ['-']⟩ (2 ^ 63 - 1) 83).length ≠ 1 := by
  have hmax : MaxCombinations ⟨1, 1, ['-']⟩ = 84 := by decide
  have hwrap : wrapI64 (83 + (2 ^ 63 - 1)) = 82 - 2 ^ 63 := by
    have hw : ((w64 : Nat) : Int) = 18446744073709551616 := by norm_num [w64]
    have hh : ((i64Half : Nat) : Int) = 9223372036854775808 := by norm_num [i64Half]
    rw [wrapI64, hw, hh]
    norm_num
  simp only [BatchGenerateIDs]
  rw [if_neg (by norm_num), hmax, if_neg (by norm_num), hwrap,
    if_neg (by norm_num), if_neg (by norm_num)]
  rw [List.length_map, List.length_range]
  norm_num
  decide

theorem claim4_witness :
    (BatchGenerateIDs ⟨1, 1, ['-']⟩ 10 80).length = 4 := by
  have h := claim4_sequential_batch 1 1 ['-'] 10 80 (by norm_num) (by norm_num)
    (by decide) (by norm_num)
  rw [h, List.length_map, List.length_range]
  decide

/-! ### Random sampling: swaps, the shuffle, and rejection sampling -/

theorem cons_set_perm : ∀ (t : List Nat) (k x : Nat), k < t.length →
    (t.getD k 0 :: t.set k x).Perm (x :: t) := by
  intro t
  induction t with
  | nil =>
    intro k x hk
    simp at hk
  | cons y r ih =>
    intro k x hk
    cases k with
    | zero =>
      simp only [List.getD_cons_zero, List.set_cons_zero]
      exact List.Perm.swap x y r
    | succ k' =>
      have hk' : k' < r.length := by simpa using hk
      simp only [List.getD_cons_succ, List.set_cons_succ]
      exact (List.Perm.swap y (r.getD k' 0) (r.set k' x)).trans
        (((ih k' x hk').cons y).trans (List.Perm.swap x y r))

theorem swapL_perm : ∀ (l : List Nat) (i j : Nat), i < l.length → j < l.length →
    (swapL l i j).Perm l := by
  intro l
  induction l with
  | nil =>
    intro i j hi _
    simp at hi
  | cons x t ih =>
    intro i j hi hj
    cases i with
    | zero =>
      cases j with
      | zero =>
        simp only [swapL, List.getD_cons_zero, List.set_cons_zero]
        exact List.Perm.refl _
      | succ j' =>
        have hj' : j' < t.length := by simpa using hj
        simp only [swapL, List.getD_cons_succ, List.getD_cons_zero, List.set_cons_zero,
          List.set_cons_succ]
        exact cons_set_perm t j' x hj'
    | succ i' =>
      cases j with
      | zero =>
        have hi' : i' < t.length := by simpa using hi
        simp only [swapL, List.getD_cons_succ, List.getD_cons_zero, List.set_cons_succ,
          List.set_cons_zero]
        exact cons_set_perm t i' x hi'
      | succ j' =>
        have hi' : i' < t.length := by simpa using hi
        have hj' : j' < t.length := by simpa using hj
        simp only [swapL, List.getD_cons_succ, List.set_cons_succ]
        exact (ih i' j' hi' hj').cons x

theorem shuffleAux_perm : ∀ (i : Nat) (r : RandSrc) (arr : List Nat), i < arr.length →
    (shuffleAux r arr i).1.Perm arr := by
  intro i
  induction i with
  | zero =>
    intro r arr _
    exact List.Perm.refl _
  | succ k ih =>
    intro r arr hi
    rw [shuffleAux]
    have hj : (intn r (k + 2)).1 < k + 2 := Nat.mod_lt _ (by omega)
    have hjlen : (intn r (k + 2)).1 < arr.length := by omega
    have hswap := swapL_perm arr (k + 1) (intn r (k + 2)).1 hi hjlen
    have hlen : (swapL arr (k + 1) (intn r (k + 2)).1).length = arr.length :=
      hswap.length_eq
    exact (ih (intn r (k + 2)).2 _ (by omega)).trans hswap

theorem rejectAux_spec : ∀ (fuel mx cnt : Nat) (r : RandSrc) (acc positions : List Nat)
    (r' : RandSrc), 0 < mx → acc.Nodup → (∀ x ∈ acc, x < mx) → acc.length ≤ cnt →
    rejectAux mx cnt fuel r acc = some (positions, r') →
    positions.length = cnt ∧ positions.Nodup ∧ ∀ x ∈ positions, x < mx := by
  intro fuel
  induction fuel with
  | zero =>
    intro mx cnt r acc positions r' hmx hnd hbd hle h
    rw [rejectAux] at h
    by_cases hc : cnt ≤ acc.length
    · rw [if_pos hc] at h
      obtain ⟨rfl, rfl⟩ : acc = positions ∧ r = r' := by
        have := Option.some.inj h
        exact ⟨congrArg Prod.fst this, congrArg Prod.snd this⟩
      exact ⟨by omega, hnd, hbd⟩
    · rw [if_neg hc] at h
      simp at h
  | succ f ih =>
    intro mx cnt r acc positions r' hmx hnd hbd hle h
    rw [rejectAux] at h
    by_cases hc : cnt ≤ acc.length
    · rw [if_pos hc] at h
      obtain ⟨rfl, rfl⟩ : acc = positions ∧ r = r' := by
        have := Option.some.inj h
        exact ⟨congrArg Prod.fst this, congrArg Prod.snd this⟩
      exact ⟨by omega, hnd, hbd⟩
    · rw [if_neg hc] at h
      have hdraw : (intn r mx).1 < mx := Nat.mod_lt _ hmx
      by_cases hmem : (intn r mx).1 ∈ acc
      · rw [if_pos hmem] at h
        exact ih mx cnt _ acc positions r' hmx hnd hbd hle h
      · rw [if_neg hmem] at h
        apply ih mx cnt _ (acc ++ [(intn r mx).1]) positions r' hmx
        · simp [List.nodup_append, hnd, hmem]
        · intro x hx
          rcases List.mem_append.mp hx with hx | hx
          · exact hbd x hx
          · simp only [List.mem_singleton] at hx
            subst hx
            exact hdraw
        · simp only [List.length_append, List.length_singleton]
          omega
        · exact h

theorem randomSample_spec : ∀ (r : RandSrc) (mx cnt fuel : Nat) (positions : List Nat)
    (r' : RandSrc), 0 < cnt → cnt ≤ mx →
    randomSample r mx cnt fuel = some (positions, r') →
    positions.length = cnt ∧ positions.Nodup ∧ (∀ x ∈ positions, x < mx) ∧
      (cnt = mx → positions.Perm (List.range mx)) := by
  intro r mx cnt fuel positions r' hc hcm h
  rw [randomSample] at h
  by_cases hge : mx ≤ cnt
  · rw [if_pos hge] at h
    have hcmx : cnt = mx := le_antisymm hcm hge
    subst hcmx
    have hperm : (shuffleAux r (List.range cnt) (cnt - 1)).1.Perm (List.range cnt) := by
      apply shuffleAux_perm
      rw [List.length_range]
      omega
    have hlen : (shuffleAux r (List.range cnt) (cnt - 1)).1.length = cnt := by
      rw [hperm.length_eq, List.length_range]
    obtain ⟨hpos, _⟩ : (shuffleAux r (List.range cnt) (cnt - 1)).1.take cnt = positions ∧
        (shuffleAux r (List.range cnt) (cnt - 1)).2 = r' := by
      have := Option.some.inj h
      exact ⟨congrArg Prod.fst this, congrArg Prod.snd this⟩
    rw [List.take_of_length_le (by omega)] at hpos
    subst hpos
    refine ⟨hlen, hperm.nodup_iff.mpr (List.nodup_range cnt), ?_, fun _ => hperm⟩
    intro x hx
    have := hperm.mem_iff.mp hx
    exact List.mem_range.mp this
  · rw [if_neg hge] at h
    push_neg at hge
    have hspec := rejectAux_spec fuel mx cnt r [] positions r' (by omega)
      List.nodup_nil (by simp) (by simp) h
    exact ⟨hspec.1, hspec.2.1, hspec.2.2, fun hcm2 => absurd hcm2 (by omega)⟩

/-- C5: `BatchGenerateRandomIDs` yields the empty sequence exactly for
`count ≤ 0` or `count > maxCombinations` (whenever its sampling loop has
terminated), and `BatchGenerateIDs` yields the empty sequence exactly for
`count ≤ 0`, negative `startPosition`, or `startPosition ≥ maxCombinations`. -/
theorem claim5_empty_conditions :
    (∀ (g : Config) (r : RandSrc) (fuel : Nat) (count : Int),
      count ≤ 0 ∨ count > MaxCombinations g →
      BatchGenerateRandomIDs g r fuel count = some []) ∧
    (∀ (g : Config) (r : RandSrc) (fuel : Nat) (count : Int) (ids : List (List Char)),
      0 < count → count ≤ MaxCombinations g →
      BatchGenerateRandomIDs g r fuel count = some ids → ids ≠ []) ∧
    (∀ (g : Config) (count startPosition : Int),
      BatchGenerateIDs g count startPosition = [] ↔
        count ≤ 0 ∨ startPosition < 0 ∨ startPosition ≥ MaxCombinations g) := by
  refine ⟨?_, ?_, ?_⟩
  · intro g r fuel count h
    simp only [BatchGenerateRandomIDs]
    by_cases h0 : count ≤ 0
    · rw [if_pos h0]
    · rw [if_neg h0, if_pos (by omega)]
  · intro g r fuel count ids hc hcm h
    simp only [BatchGenerateRandomIDs] at h
    rw [if_neg (by omega), if_neg (by omega)] at h
    rcases hrs : randomSample r (MaxCombinations g).toNat count.toNat fuel with _ | ⟨positions, r'⟩
    · rw [hrs] at h
      exact absurd h (by simp)
    · rw [hrs] at h
      have hids : ids = positions.map (fun pos : Nat => PositionToID g (pos : Int)) :=
        (Option.some.inj h).symm
      obtain ⟨hlen, -, -, -⟩ := randomSample_spec r _ _ fuel positions r'
        (by omega) (by omega) hrs
      have : 0 < ids.length := by
        rw [hids, List.length_map, hlen]
        omega
      exact List.ne_nil_of_length_pos this
  · intro g count startPosition
    constructor
    · intro h
      by_contra hcon
      push_neg at hcon
      obtain ⟨h1, h2, h3⟩ := hcon
      simp only [BatchGenerateIDs] at h
      rw [if_neg (by omega), if_neg (by omega)] at h
      by_cases hclamp : wrapI64 (startPosition + count) > MaxCombinations g
      · rw [if_pos hclamp, if_neg (by omega)] at h
        rw [List.map_eq_nil_iff, List.range_eq_nil] at h
        omega
      · rw [if_neg hclamp, if_neg (by omega)] at h
        rw [List.map_eq_nil_iff, List.range_eq_nil] at h
        omega
    · intro h
      simp only [BatchGenerateIDs]
      by_cases h1 : count ≤ 0 ∨ startPosition < 0
      · rw [if_pos h1]
      · rw [if_neg h1, if_pos (by omega)]

theorem claim5_witness : BatchGenerateIDs ⟨1, 1, ['-']⟩ 0 5 = [] :=
  (claim5_empty_conditions.2.2 ⟨1, 1, ['-']⟩ 0 5).mpr (Or.inl (by norm_num))

/-- C3 (amended): for every admissible configuration (separator non-empty
and starting outside the two alphabets, combination count within int64),
every oracle state of the random stream and every terminating run,
`BatchGenerateRandomIDs count` with `0 < count ≤ maxCombinations` returns
exactly `count` identifiers, pairwise distinct, decoding to pairwise
distinct in-range positions; for `count = maxCombinations` the decoded
positions are a permutation of the whole range.  The original claim, read
over every generator the spec admits, also covered empty-separator
configurations, where the decoded-positions part fails
(`claim3_counterexample`). -/
theorem claim3_random_batch :
    ∀ (m p : Nat) (s0 : Char) (ss : List Char) (r : RandSrc) (fuel : Nat)
      (count : Int) (ids : List (List Char)),
      s0 ∉ symbolChars → 7 ^ m * 12 ^ p < 2 ^ 63 →
      0 < count → count ≤ MaxCombinations ⟨m, p, s0 :: ss⟩ →
      BatchGenerateRandomIDs ⟨m, p, s0 :: ss⟩ r fuel count = some ids →
      ids.length = count.toNat ∧
        ids.Nodup ∧
        (ids.map (IDToPosition ⟨m, p, s0 :: ss⟩)).Nodup ∧
        (∀ x ∈ ids.map (IDToPosition ⟨m, p, s0 :: ss⟩),
          0 ≤ x ∧ x < MaxCombinations ⟨m, p, s0 :: ss⟩) ∧
        (count = MaxCombinations ⟨m, p, s0 :: ss⟩ →
          (ids.map (IDToPosition ⟨m, p, s0 :: ss⟩)).Perm
            ((List.range (MaxCombinations ⟨m, p, s0 :: ss⟩).toNat).map
              (fun n : Nat => (n : Int)))) := by
  intro m p s0 ss r fuel count ids hs hM hc hcm h
  have hmaxeq := MaxCombinations_eq (s0 :: ss) hM
  have htn : (MaxCombinations ⟨m, p, s0 :: ss⟩).toNat = 7 ^ m * 12 ^ p := by
    rw [hmaxeq]
    exact Int.toNat_natCast _
  simp only [BatchGenerateRandomIDs] at h
  rw [if_neg (by omega), if_neg (by omega)] at h
  rcases hrs : randomSample r (MaxCombinations ⟨m, p, s0 :: ss⟩).toNat count.toNat fuel
    with _ | ⟨positions, r'⟩
  · rw [hrs] at h
    exact absurd h (by simp)
  · rw [hrs] at h
    have hids : ids = positions.map
        (fun pos : Nat => PositionToID ⟨m, p, s0 :: ss⟩ (pos : Int)) :=
      (Option.some.inj h).symm
    obtain ⟨hlen, hnd, hbd, hperm⟩ := randomSample_spec r _ _ fuel positions r'
      (by omega) (by omega) hrs
    have hbd' : ∀ x ∈ positions, x < 7 ^ m * 12 ^ p := fun x hx => htn ▸ hbd x hx
    have hdecode : ids.map (IDToPosition ⟨m, p, s0 :: ss⟩) =
        positions.map (fun x : Nat => (x : Int)) := by
      rw [hids, List.map_map]
      apply List.map_congr_left
      intro x hx
      exact roundtrip_nat hs hM (hbd' x hx)
    refine ⟨?_, ?_, ?_, ?_, ?_⟩
    · rw [hids, List.length_map, hlen]
    · rw [hids]
      exact List.Nodup.map_on
        (fun x hx y hy hf => PositionToID_injOn hs hM (hbd' x hx) (hbd' y hy) hf) hnd
    · rw [hdecode]
      exact hnd.map Nat.cast_injective
    · rw [hdecode]
      intro x hx
      simp only [List.mem_map] at hx
      obtain ⟨n, hn, rfl⟩ := hx
      have hlt := hbd' n hn
      refine ⟨by positivity, ?_⟩
      rw [hmaxeq]
      exact_mod_cast hlt
    · intro hceq
      have hcnt : count.toNat = (MaxCombinations ⟨m, p, s0 :: ss⟩).toNat := by rw [hceq]
      have hpm := hperm hcnt
      rw [hdecode]
      exact hpm.map _

theorem claim3_witness :
    (["do-0".toList, "do-1".toList] : List (List Char)).length = (2 : Int).toNat ∧
      (["do-0".toList, "do-1".toList] : List (List Char)).Nodup := by
  have h := claim3_random_batch 1 1 '-' [] natStream 10 2
    ["do-0".toList, "do-1".toList]
    (by decide) (by norm_num) (by norm_num) (by decide) (by decide)
  exact ⟨h.1, h.2.1⟩

/-- C3 counterexample: under the empty-separator configuration `(1, 1, "")`
(which the specification explicitly supports and the repository's tests
construct), a terminated run with `count = 2 ≤ maxCombinations = 84` returns
two identifiers that both decode to -1: the decoded values are neither
pairwise distinct nor positions in `[0, maxCombinations)`. -/
theorem claim3_counterexample :
    (2 : Int) ≤ MaxCombinations ⟨1, 1, []⟩ ∧
      BatchGenerateRandomIDs ⟨1, 1, []⟩ natStream 10 2 =
        some ["do0".toList, "do1".toList] ∧
      ¬ (((["do0".toList, "do1".toList] : List (List Char)).map
        (IDToPosition ⟨1, 1, []⟩)).Nodup) ∧
      IDToPosition ⟨1, 1, []⟩ "do0".toList = -1 := by
  decide

end Doremid
